import Mathlib

/-!
Verification of the rsbkb hex and url applets (src/hexapp.rs, src/urlapp.rs).

Bytes are modelled as natural numbers and byte buffers as lists of naturals.
The hex crate's `decode`/`encode` (used by the applets) and the applet methods
`UnHexApplet::hex_decode_hexonly`, `UnHexApplet::hex_decode_all`,
`HexApplet::process` and `UrlEncApplet::process` are embedded as executable
functions.  The recursive hex-only decoder is embedded with a structural fuel
parameter so that it stays kernel-computable; its defining recursion equations
are proved below (`hexOnly_strict_eq`, `hexOnly_ok_eq`, `hexOnly_invalid_eq`,
`hexOnly_odd_eq`).
-/

namespace Rsbkb

/-- ASCII whitespace test on a byte value.
Modelled from the spec: the trim utility (the applet module's slice `trim`
helper, whose source file is not among the provided sources) removes leading
and trailing whitespace, including newlines; we use the ASCII whitespace set. -/
def isWhitespaceByte (c : Nat) : Bool :=
  c == 32 || c == 9 || c == 10 || c == 12 || c == 13

/-- Modelled from the spec: `trim` removes leading and trailing whitespace bytes
from a byte buffer. -/
def trim (l : List Nat) : List Nat :=
  ((l.dropWhile isWhitespaceByte).reverse.dropWhile isWhitespaceByte).reverse

/-- Error type of the hex crate (`hex::FromHexError`).  The offending character
is kept as its byte value. -/
inductive FromHexError where
  | InvalidHexCharacter (c : Nat) (index : Nat)
  | OddLength
  | InvalidStringLength
  deriving DecidableEq

/-- Nibble value of an ASCII hex digit, as in the hex crate's `val` helper. -/
def hexVal (c : Nat) : Option Nat :=
  if 65 ≤ c ∧ c ≤ 70 then some (c - 65 + 10)
  else if 97 ≤ c ∧ c ≤ 102 then some (c - 97 + 10)
  else if 48 ≤ c ∧ c ≤ 57 then some (c - 48)
  else none

/-- The pairwise decoding loop of `hex::decode`; `k` is the index of the first
element of `l` within the original buffer (used in error reports).  It is only
ever invoked on even-length buffers, so the one-element case is arbitrary. -/
def decodePairs : List Nat → Nat → Except FromHexError (List Nat)
  | [], _ => .ok []
  | [_], _ => .ok []
  | a :: b :: rest, k =>
    match hexVal a with
    | none => .error (.InvalidHexCharacter a k)
    | some va =>
      match hexVal b with
      | none => .error (.InvalidHexCharacter b (k + 1))
      | some vb => (decodePairs rest (k + 2)).map (fun t => (va * 16 + vb) :: t)

/-- `hex::decode`: reject odd-length buffers, then decode hex-digit pairs left
to right, reporting the first invalid character with its index. -/
def hexDecode (l : List Nat) : Except FromHexError (List Nat) :=
  if l.length % 2 = 1 then .error .OddLength else decodePairs l 0

/-- Rust `char::is_ascii_hexdigit` on a byte value. -/
def isAsciiHexDigit (c : Nat) : Bool :=
  (decide (48 ≤ c) && decide (c ≤ 57)) ||
  (decide (65 ≤ c) && decide (c ≤ 70)) ||
  (decide (97 ≤ c) && decide (c ≤ 102))

/-- Low hex digit byte in lowercase, as produced by the hex crate's encoder and
by Rust's `{:02x}` formatting: nibble `n < 16` becomes `'0'..'9'` or `'a'..'f'`. -/
def hexDigitLower (n : Nat) : Nat :=
  if n < 10 then 48 + n else 87 + n

/-- `hex::encode` as used by `HexApplet::process`: each byte becomes its high
nibble digit followed by its low nibble digit, in lowercase. -/
def hexEncode : List Nat → List Nat
  | [] => []
  | b :: rest => hexDigitLower (b / 16) :: hexDigitLower (b % 16) :: hexEncode rest

/-- Space stripping in `UnHexApplet::hex_decode_hexonly`
(`trimmed.retain(|&x| x != 0x20)`). -/
def stripSpaces (l : List Nat) : List Nat :=
  l.filter (fun x => x != 32)

/-- Error type of the hex-only decoder: either a hex error surfaced in strict
mode (wrapped by anyhow context in the original), or the catch-all branch of
the lenient recovery, which the original expresses as a panic. -/
inductive DecodeError where
  | hexErr (e : FromHexError)
  | fatal (e : FromHexError)
  deriving DecidableEq

/-- Fuel-indexed embedding of `UnHexApplet::hex_decode_hexonly`.  The Rust
function recurses on strictly shorter buffers; the fuel is a structural bound
on that recursion depth, and `hex_decode_hexonly` below instantiates it with
the buffer length so that the fuel never runs out (`hexOnlyFuel_irrel`). -/
def hexOnlyFuel : Nat → Bool → List Nat → Except DecodeError (List Nat)
  | 0, _, _ => .error (.fatal .InvalidStringLength)
  | f + 1, strict, val =>
    let trimmed := trim val
    if strict then (hexDecode trimmed).mapError DecodeError.hexErr
    else
      let stripped := stripSpaces trimmed
      match hexDecode stripped with
      | .ok decoded => .ok decoded
      | .error (.InvalidHexCharacter _ index) =>
        (hexOnlyFuel f strict (stripped.take index)).map
          (fun decoded => decoded ++ stripped.drop index)
      | .error .OddLength =>
        (hexOnlyFuel f strict (stripped.take (stripped.length - 1))).map
          (fun decoded => decoded ++ stripped.drop (stripped.length - 1))
      | .error e => .error (.fatal e)

/-- `UnHexApplet::hex_decode_hexonly`: trim, in strict mode decode directly;
otherwise strip spaces and decode, recovering from an invalid character by
passing the tail through verbatim and from an odd length by peeling off the
last byte as a literal. -/
def hex_decode_hexonly (strict : Bool) (val : List Nat) : Except DecodeError (List Nat) :=
  hexOnlyFuel (val.length + 1) strict val

/-- The list of two-byte sliding windows of a buffer, as produced by Rust's
`slice::windows(2)` (empty when the buffer has fewer than two bytes). -/
def windows2 : List Nat → List (Nat × Nat)
  | [] => []
  | [_] => []
  | a :: b :: rest => (a, b) :: windows2 (b :: rest)

/-- The loop of `UnHexApplet::hex_decode_all` over the window iterator.  The
`last` argument is the carried byte slice (`last` in the Rust code): it is
flushed to the output when the iterator is exhausted.  In the hex-pair branch
the iterator is advanced once more and the carried byte becomes the second
element of that extra window, if any. -/
def hexDecodeAllLoop : List (Nat × Nat) → List Nat → Except FromHexError (List Nat)
  | [], last => .ok last
  | (a, b) :: ws, _last =>
    if isAsciiHexDigit a && isAsciiHexDigit b then
      match hexDecode [a, b] with
      | .error e => .error e
      | .ok pair =>
        match ws with
        | [] => (hexDecodeAllLoop [] []).map (fun r => pair ++ r)
        | (_, d) :: ws2 => (hexDecodeAllLoop ws2 [d]).map (fun r => pair ++ r)
    else
      (hexDecodeAllLoop ws [b]).map (fun r => a :: r)

/-- `UnHexApplet::hex_decode_all`: scan the buffer with a two-byte sliding
window, decoding adjacent hex-digit pairs and passing other bytes through. -/
def hex_decode_all (hexval : List Nat) : Except FromHexError (List Nat) :=
  hexDecodeAllLoop (windows2 hexval) []

/-- Rust `char::is_ascii_graphic` on a byte value. -/
def isAsciiGraphic (c : Nat) : Bool :=
  decide (33 ≤ c) && decide (c ≤ 126)

/-- Rust `char::is_ascii_alphanumeric` on a byte value. -/
def isAsciiAlphanumeric (c : Nat) : Bool :=
  (decide (48 ≤ c) && decide (c ≤ 57)) ||
  (decide (65 ≤ c) && decide (c ≤ 90)) ||
  (decide (97 ≤ c) && decide (c ≤ 122))

/-- The RFC 3986 character list matched in `build_url_table`. -/
def rfc3986Chars : List Nat :=
  [33, 35, 36, 37, 38, 39, 40, 41, 42, 43, 44, 47, 58, 59, 61, 63, 64, 91, 93]

/-- `build_url_table` from src/urlapp.rs, as the table entry for byte `i`:
encode non-graphic characters, and characters of the RFC 3986 list that are
not explicitly excluded.  (The Rust code only ever sets entries of an
all-false table to true, so the entry equals the condition.) -/
def build_url_table (excluded : List Nat) (i : Nat) : Bool :=
  !isAsciiGraphic i || (!excluded.contains i && rfc3986Chars.contains i)

/-- `build_custom_table` from src/urlapp.rs: encode exactly the characters of
`custom` that are not excluded. -/
def build_custom_table (excluded custom : List Nat) (i : Nat) : Bool :=
  if custom.contains i then !excluded.contains i else false

/-- `build_default_table` from src/urlapp.rs: encode every non-alphanumeric
character that is not excluded. -/
def build_default_table (excluded : List Nat) (i : Nat) : Bool :=
  if isAsciiAlphanumeric i then false else !excluded.contains i

/-- `UrlEncApplet::process`: bytes whose table entry is true are emitted as a
percent sign (byte 37) followed by the two lowercase hex digits of the byte
(`format of percent then 02x`); other bytes pass through unchanged. -/
def urlencProcess (table : Nat → Bool) : List Nat → List Nat
  | [] => []
  | b :: rest =>
    (if table b then [37, hexDigitLower (b / 16), hexDigitLower (b % 16)] else [b]) ++
      urlencProcess table rest

/-- Refinement comparison: the find-anywhere scan exactly as the spec words it
(one left-to-right greedy pass: decode an adjacent hex-digit pair and advance
by two, otherwise pass the current byte through and advance by one; a trailing
lone byte passes through). -/
def findAnywhereScan : List Nat → List Nat
  | [] => []
  | [a] => [a]
  | a :: b :: rest =>
    if isAsciiHexDigit a && isAsciiHexDigit b then
      ((hexVal a).getD 0 * 16 + (hexVal b).getD 0) :: findAnywhereScan rest
    else
      a :: findAnywhereScan (b :: rest)

/-- Number of decoded hex-digit pairs consumed by the find-anywhere scan
(spec-side counting device for the byte-accounting claim). -/
def findAnywherePairs : List Nat → Nat
  | [] => 0
  | [_] => 0
  | a :: b :: rest =>
    if isAsciiHexDigit a && isAsciiHexDigit b then
      findAnywherePairs rest + 1
    else
      findAnywherePairs (b :: rest)

/-- Fuel-indexed count of output bytes that the hex-only decoder produces by
decoding hex-digit pairs (spec-side counting device; it follows the recursion
of `hexOnlyFuel` in its non-strict branches). -/
def hexOnlyCountFuel : Nat → List Nat → Nat
  | 0, _ => 0
  | f + 1, val =>
    let stripped := stripSpaces (trim val)
    match hexDecode stripped with
    | .ok decoded => decoded.length
    | .error (.InvalidHexCharacter _ index) =>
      hexOnlyCountFuel f (stripped.take index)
    | .error .OddLength =>
      hexOnlyCountFuel f (stripped.take (stripped.length - 1))
    | .error _ => 0

/-- Number of output bytes of the non-strict hex-only decoder that come from
decoded hex-digit pairs. -/
def hexOnlyDecodedCount (val : List Nat) : Nat :=
  hexOnlyCountFuel (val.length + 1) val

/-- A byte that is a lowercase hex digit (decimal digit or `'a'..'f'`). -/
def isLowercaseHexDigitByte (c : Nat) : Bool :=
  (decide (48 ≤ c) && decide (c ≤ 57)) || (decide (97 ≤ c) && decide (c ≤ 102))

/-! Basic facts about the hex crate model. -/

theorem isHex_iff_hexVal_isSome (c : Nat) :
    isAsciiHexDigit c = true ↔ (hexVal c).isSome = true := by
  simp only [isAsciiHexDigit, hexVal]
  split_ifs <;> simp <;> omega

theorem hexVal_eq_none_of_not_hex {c : Nat} (h : isAsciiHexDigit c = false) :
    hexVal c = none := by
  rcases hv : hexVal c with _ | v
  · rfl
  · have : (hexVal c).isSome = true := by rw [hv]; rfl
    rw [← isHex_iff_hexVal_isSome] at this
    rw [this] at h
    cases h

theorem hexDecode_pair {a b va vb : Nat} (ha : hexVal a = some va)
    (hb : hexVal b = some vb) : hexDecode [a, b] = .ok [va * 16 + vb] := by
  simp [hexDecode, decodePairs, ha, hb, Except.map]

theorem decodePairs_ok_length : ∀ (l : List Nat) (k : Nat) (d : List Nat),
    l.length % 2 = 0 → decodePairs l k = .ok d → l.length = 2 * d.length
  | [], _, d, _, h => by
    simp only [decodePairs] at h
    cases h
    simp
  | [a], _, _, hpar, _ => by simp at hpar
  | a :: b :: rest, k, d, hpar, h => by
    simp only [decodePairs] at h
    rcases hva : hexVal a with _ | va <;> rw [hva] at h
    · cases h
    · rcases hvb : hexVal b with _ | vb <;> rw [hvb] at h
      · cases h
      · rcases hrec : decodePairs rest (k + 2) with e | t <;> rw [hrec] at h
        · cases h
        · cases h
          have hp : rest.length % 2 = 0 := by
            simp only [List.length_cons] at hpar
            omega
          have := decodePairs_ok_length rest (k + 2) t hp hrec
          simp only [List.length_cons, List.length_cons]
          omega

theorem hexDecode_ok_length {l d : List Nat} (h : hexDecode l = .ok d) :
    l.length = 2 * d.length := by
  unfold hexDecode at h
  split at h
  · cases h
  · exact decodePairs_ok_length l 0 d (by omega) h

theorem decodePairs_error : ∀ (l : List Nat) (k : Nat) (e : FromHexError),
    decodePairs l k = .error e →
    ∃ c i, e = .InvalidHexCharacter c i ∧ k ≤ i ∧ i < k + l.length
  | [], _, _, h => by simp [decodePairs] at h
  | [a], _, _, h => by simp [decodePairs] at h
  | a :: b :: rest, k, e, h => by
    simp only [decodePairs] at h
    rcases hva : hexVal a with _ | va <;> rw [hva] at h
    · cases h
      exact ⟨a, k, rfl, Nat.le_refl k, by simp⟩
    · rcases hvb : hexVal b with _ | vb <;> rw [hvb] at h
      · cases h
        exact ⟨b, k + 1, rfl, by omega, by simp only [List.length_cons]; omega⟩
      · rcases hrec : decodePairs rest (k + 2) with e2 | t <;> rw [hrec] at h
        · cases h
          obtain ⟨c, i, hc, hki, hik⟩ := decodePairs_error rest (k + 2) _ hrec
          exact ⟨c, i, hc, by omega, by simp only [List.length_cons]; omega⟩
        · cases h

theorem hexDecode_error_kinds {l : List Nat} {e : FromHexError}
    (h : hexDecode l = .error e) :
    e = .OddLength ∨ ∃ c i, e = .InvalidHexCharacter c i ∧ i < l.length := by
  unfold hexDecode at h
  split at h
  · cases h
    exact Or.inl rfl
  · obtain ⟨c, i, hc, _, hik⟩ := decodePairs_error l 0 e h
    exact Or.inr ⟨c, i, hc, by omega⟩

theorem hexDecode_oddLength_iff {l : List Nat} :
    hexDecode l = .error .OddLength ↔ l.length % 2 = 1 := by
  constructor
  · intro h
    unfold hexDecode at h
    split at h
    · omega
    · obtain ⟨c, i, hc, _, _⟩ := decodePairs_error l 0 _ h
      cases hc
  · intro h
    simp [hexDecode, h]

theorem hexDecode_invalid_bound {l : List Nat} {c i : Nat}
    (h : hexDecode l = .error (.InvalidHexCharacter c i)) : i < l.length := by
  rcases hexDecode_error_kinds h with h1 | ⟨c2, i2, h2, hlt⟩
  · cases h1
  · cases h2
    exact hlt

/-! Fuel machinery for the hex-only decoder: one-step unfolding lemmas, fuel
irrelevance, and the defining recursion equations of `hex_decode_hexonly`. -/

theorem trim_length_le (l : List Nat) : (trim l).length ≤ l.length := by
  unfold trim
  rw [List.length_reverse]
  calc ((l.dropWhile isWhitespaceByte).reverse.dropWhile isWhitespaceByte).length
      ≤ (l.dropWhile isWhitespaceByte).reverse.length :=
        (List.dropWhile_sublist _).length_le
    _ = (l.dropWhile isWhitespaceByte).length := List.length_reverse ..
    _ ≤ l.length := (List.dropWhile_sublist _).length_le

theorem stripSpaces_length_le (l : List Nat) : (stripSpaces l).length ≤ l.length :=
  List.length_filter_le ..

theorem stripTrim_length_le (l : List Nat) :
    (stripSpaces (trim l)).length ≤ l.length :=
  le_trans (stripSpaces_length_le _) (trim_length_le _)

theorem hexOnlyFuel_succ_true (f : Nat) (val : List Nat) :
    hexOnlyFuel (f + 1) true val = (hexDecode (trim val)).mapError DecodeError.hexErr :=
  rfl

theorem hexOnlyFuel_succ_false (f : Nat) (val : List Nat) :
    hexOnlyFuel (f + 1) false val =
      match hexDecode (stripSpaces (trim val)) with
      | .ok decoded => .ok decoded
      | .error (.InvalidHexCharacter _ index) =>
        (hexOnlyFuel f false ((stripSpaces (trim val)).take index)).map
          (fun decoded => decoded ++ (stripSpaces (trim val)).drop index)
      | .error .OddLength =>
        (hexOnlyFuel f false
            ((stripSpaces (trim val)).take ((stripSpaces (trim val)).length - 1))).map
          (fun decoded =>
            decoded ++ (stripSpaces (trim val)).drop ((stripSpaces (trim val)).length - 1))
      | .error e => .error (.fatal e) :=
  rfl

theorem hexOnlyFuel_false_ok {f : Nat} {val d : List Nat}
    (h : hexDecode (stripSpaces (trim val)) = .ok d) :
    hexOnlyFuel (f + 1) false val = .ok d := by
  rw [hexOnlyFuel_succ_false, h]

theorem hexOnlyFuel_false_invalid {f : Nat} {val : List Nat} {c i : Nat}
    (h : hexDecode (stripSpaces (trim val)) = .error (.InvalidHexCharacter c i)) :
    hexOnlyFuel (f + 1) false val =
      (hexOnlyFuel f false ((stripSpaces (trim val)).take i)).map
        (fun decoded => decoded ++ (stripSpaces (trim val)).drop i) := by
  rw [hexOnlyFuel_succ_false, h]

theorem hexOnlyFuel_false_odd {f : Nat} {val : List Nat}
    (h : hexDecode (stripSpaces (trim val)) = .error .OddLength) :
    hexOnlyFuel (f + 1) false val =
      (hexOnlyFuel f false
          ((stripSpaces (trim val)).take ((stripSpaces (trim val)).length - 1))).map
        (fun decoded =>
          decoded ++ (stripSpaces (trim val)).drop ((stripSpaces (trim val)).length - 1)) := by
  rw [hexOnlyFuel_succ_false, h]

theorem hexOnlyFuel_false_other {f : Nat} {val : List Nat}
    (h : hexDecode (stripSpaces (trim val)) = .error .InvalidStringLength) :
    hexOnlyFuel (f + 1) false val = .error (.fatal .InvalidStringLength) := by
  rw [hexOnlyFuel_succ_false, h]

theorem hexOnlyFuel_irrel : ∀ (f g : Nat) (strict : Bool) (val : List Nat),
    val.length < f → val.length < g →
    hexOnlyFuel f strict val = hexOnlyFuel g strict val := by
  intro f
  induction f with
  | zero => intro g strict val hf _; exact absurd hf (by omega)
  | succ f ih =>
    intro g strict val hf hg
    cases g with
    | zero => exact absurd hg (by omega)
    | succ g =>
      cases strict with
      | true => rw [hexOnlyFuel_succ_true, hexOnlyFuel_succ_true]
      | false =>
        rcases hdec : hexDecode (stripSpaces (trim val)) with e | d
        · cases e with
          | InvalidHexCharacter c i =>
            have hi : i < (stripSpaces (trim val)).length := hexDecode_invalid_bound hdec
            have hsl : (stripSpaces (trim val)).length ≤ val.length := stripTrim_length_le val
            have htk : ((stripSpaces (trim val)).take i).length < val.length := by
              rw [List.length_take]; omega
            rw [hexOnlyFuel_false_invalid hdec, hexOnlyFuel_false_invalid hdec,
              ih g false ((stripSpaces (trim val)).take i) (by omega) (by omega)]
          | OddLength =>
            have hodd : (stripSpaces (trim val)).length % 2 = 1 :=
              hexDecode_oddLength_iff.mp hdec
            have hsl : (stripSpaces (trim val)).length ≤ val.length := stripTrim_length_le val
            have htk :
                ((stripSpaces (trim val)).take ((stripSpaces (trim val)).length - 1)).length
                  < val.length := by
              rw [List.length_take]; omega
            rw [hexOnlyFuel_false_odd hdec, hexOnlyFuel_false_odd hdec,
              ih g false _ (by omega) (by omega)]
          | InvalidStringLength =>
            rw [hexOnlyFuel_false_other hdec, hexOnlyFuel_false_other hdec]
        · rw [hexOnlyFuel_false_ok hdec, hexOnlyFuel_false_ok hdec]

theorem hexOnly_strict_eq (val : List Nat) :
    hex_decode_hexonly true val = (hexDecode (trim val)).mapError DecodeError.hexErr :=
  rfl

theorem hexOnly_ok_eq {val d : List Nat}
    (h : hexDecode (stripSpaces (trim val)) = .ok d) :
    hex_decode_hexonly false val = .ok d :=
  hexOnlyFuel_false_ok h

theorem hexOnly_invalid_eq {val : List Nat} {c i : Nat}
    (h : hexDecode (stripSpaces (trim val)) = .error (.InvalidHexCharacter c i)) :
    hex_decode_hexonly false val =
      (hex_decode_hexonly false ((stripSpaces (trim val)).take i)).map
        (fun decoded => decoded ++ (stripSpaces (trim val)).drop i) := by
  have hi : i < (stripSpaces (trim val)).length := hexDecode_invalid_bound h
  have hsl : (stripSpaces (trim val)).length ≤ val.length := stripTrim_length_le val
  have htk : ((stripSpaces (trim val)).take i).length < val.length := by
    rw [List.length_take]; omega
  unfold hex_decode_hexonly
  rw [hexOnlyFuel_false_invalid h,
    hexOnlyFuel_irrel val.length (((stripSpaces (trim val)).take i).length + 1) false
      ((stripSpaces (trim val)).take i) (by omega) (by omega)]

theorem hexOnly_odd_eq {val : List Nat}
    (h : hexDecode (stripSpaces (trim val)) = .error .OddLength) :
    hex_decode_hexonly false val =
      (hex_decode_hexonly false
          ((stripSpaces (trim val)).take ((stripSpaces (trim val)).length - 1))).map
        (fun decoded =>
          decoded ++ (stripSpaces (trim val)).drop ((stripSpaces (trim val)).length - 1)) := by
  have hodd : (stripSpaces (trim val)).length % 2 = 1 := hexDecode_oddLength_iff.mp h
  have hsl : (stripSpaces (trim val)).length ≤ val.length := stripTrim_length_le val
  have htk :
      ((stripSpaces (trim val)).take ((stripSpaces (trim val)).length - 1)).length
        < val.length := by
    rw [List.length_take]; omega
  unfold hex_decode_hexonly
  rw [hexOnlyFuel_false_odd h,
    hexOnlyFuel_irrel val.length
      (((stripSpaces (trim val)).take ((stripSpaces (trim val)).length - 1)).length + 1) false
      ((stripSpaces (trim val)).take ((stripSpaces (trim val)).length - 1))
      (by omega) (by omega)]

theorem hexVal_some_of_hex {c : Nat} (h : isAsciiHexDigit c = true) :
    ∃ v, hexVal c = some v :=
  Option.isSome_iff_exists.mp ((isHex_iff_hexVal_isSome c).mp h)

/-! The same machinery for the pair-count companion function. -/

theorem hexOnlyCountFuel_succ (f : Nat) (val : List Nat) :
    hexOnlyCountFuel (f + 1) val =
      match hexDecode (stripSpaces (trim val)) with
      | .ok decoded => decoded.length
      | .error (.InvalidHexCharacter _ index) =>
        hexOnlyCountFuel f ((stripSpaces (trim val)).take index)
      | .error .OddLength =>
        hexOnlyCountFuel f ((stripSpaces (trim val)).take ((stripSpaces (trim val)).length - 1))
      | .error _ => 0 :=
  rfl

theorem hexOnlyCountFuel_ok {f : Nat} {val d : List Nat}
    (h : hexDecode (stripSpaces (trim val)) = .ok d) :
    hexOnlyCountFuel (f + 1) val = d.length := by
  rw [hexOnlyCountFuel_succ, h]

theorem hexOnlyCountFuel_invalid {f : Nat} {val : List Nat} {c i : Nat}
    (h : hexDecode (stripSpaces (trim val)) = .error (.InvalidHexCharacter c i)) :
    hexOnlyCountFuel (f + 1) val = hexOnlyCountFuel f ((stripSpaces (trim val)).take i) := by
  rw [hexOnlyCountFuel_succ, h]

theorem hexOnlyCountFuel_odd {f : Nat} {val : List Nat}
    (h : hexDecode (stripSpaces (trim val)) = .error .OddLength) :
    hexOnlyCountFuel (f + 1) val =
      hexOnlyCountFuel f ((stripSpaces (trim val)).take ((stripSpaces (trim val)).length - 1)) := by
  rw [hexOnlyCountFuel_succ, h]

theorem hexOnlyCountFuel_irrel : ∀ (f g : Nat) (val : List Nat),
    val.length < f → val.length < g →
    hexOnlyCountFuel f val = hexOnlyCountFuel g val := by
  intro f
  induction f with
  | zero => intro g val hf _; exact absurd hf (by omega)
  | succ f ih =>
    intro g val hf hg
    cases g with
    | zero => exact absurd hg (by omega)
    | succ g =>
      rcases hdec : hexDecode (stripSpaces (trim val)) with e | d
      · cases e with
        | InvalidHexCharacter c i =>
          have hi : i < (stripSpaces (trim val)).length := hexDecode_invalid_bound hdec
          have hsl : (stripSpaces (trim val)).length ≤ val.length := stripTrim_length_le val
          have htk : ((stripSpaces (trim val)).take i).length < val.length := by
            rw [List.length_take]; omega
          rw [hexOnlyCountFuel_invalid hdec, hexOnlyCountFuel_invalid hdec,
            ih g ((stripSpaces (trim val)).take i) (by omega) (by omega)]
        | OddLength =>
          have hodd : (stripSpaces (trim val)).length % 2 = 1 :=
            hexDecode_oddLength_iff.mp hdec
          have hsl : (stripSpaces (trim val)).length ≤ val.length := stripTrim_length_le val
          have htk :
              ((stripSpaces (trim val)).take ((stripSpaces (trim val)).length - 1)).length
                < val.length := by
            rw [List.length_take]; omega
          rw [hexOnlyCountFuel_odd hdec, hexOnlyCountFuel_odd hdec,
            ih g _ (by omega) (by omega)]
        | InvalidStringLength =>
          rw [hexOnlyCountFuel_succ, hexOnlyCountFuel_succ, hdec]
      · rw [hexOnlyCountFuel_ok hdec, hexOnlyCountFuel_ok hdec]

/-! Totality of the lenient decoders: they always return a successful result. -/

theorem hexOnlyFuel_total : ∀ (f : Nat) (val : List Nat), val.length < f →
    ∃ out, hexOnlyFuel f false val = .ok out := by
  intro f
  induction f with
  | zero => intro val h; exact absurd h (by omega)
  | succ f ih =>
    intro val hf
    rcases hdec : hexDecode (stripSpaces (trim val)) with e | d
    · cases e with
      | InvalidHexCharacter c i =>
        have hi : i < (stripSpaces (trim val)).length := hexDecode_invalid_bound hdec
        have hsl : (stripSpaces (trim val)).length ≤ val.length := stripTrim_length_le val
        have htk : ((stripSpaces (trim val)).take i).length < val.length := by
          rw [List.length_take]; omega
        obtain ⟨out, hout⟩ := ih ((stripSpaces (trim val)).take i) (by omega)
        refine ⟨out ++ (stripSpaces (trim val)).drop i, ?_⟩
        rw [hexOnlyFuel_false_invalid hdec, hout]
        rfl
      | OddLength =>
        have hodd : (stripSpaces (trim val)).length % 2 = 1 :=
          hexDecode_oddLength_iff.mp hdec
        have hsl : (stripSpaces (trim val)).length ≤ val.length := stripTrim_length_le val
        have htk :
            ((stripSpaces (trim val)).take ((stripSpaces (trim val)).length - 1)).length
              < val.length := by
          rw [List.length_take]; omega
        obtain ⟨out, hout⟩ :=
          ih ((stripSpaces (trim val)).take ((stripSpaces (trim val)).length - 1)) (by omega)
        refine ⟨out ++ (stripSpaces (trim val)).drop ((stripSpaces (trim val)).length - 1), ?_⟩
        rw [hexOnlyFuel_false_odd hdec, hout]
        rfl
      | InvalidStringLength =>
        rcases hexDecode_error_kinds hdec with h1 | ⟨c, i, h2, _⟩
        · cases h1
        · cases h2
    · exact ⟨d, hexOnlyFuel_false_ok hdec⟩

theorem hexonly_total (val : List Nat) :
    ∃ out, hex_decode_hexonly false val = .ok out :=
  hexOnlyFuel_total (val.length + 1) val (by omega)

theorem hexDecodeAllLoop_total : ∀ (n : Nat) (ws : List (Nat × Nat)) (acc : List Nat),
    ws.length ≤ n → ∃ out, hexDecodeAllLoop ws acc = .ok out := by
  intro n
  induction n with
  | zero =>
    intro ws acc h
    match ws with
    | [] => exact ⟨acc, rfl⟩
    | _ :: _ => simp at h
  | succ n ih =>
    intro ws acc h
    match ws with
    | [] => exact ⟨acc, rfl⟩
    | (a, b) :: ws1 =>
      by_cases hab : (isAsciiHexDigit a && isAsciiHexDigit b) = true
      · obtain ⟨ha, hb⟩ := Bool.and_eq_true .. |>.mp hab
        obtain ⟨va, hva⟩ := hexVal_some_of_hex ha
        obtain ⟨vb, hvb⟩ := hexVal_some_of_hex hb
        have hpair := hexDecode_pair hva hvb
        match ws1 with
        | [] =>
          refine ⟨[va * 16 + vb], ?_⟩
          simp only [hexDecodeAllLoop, hab, if_true, hpair]
          rfl
        | (c, d) :: ws2 =>
          obtain ⟨out, hout⟩ := ih ws2 [d] (by simp at h ⊢; omega)
          refine ⟨[va * 16 + vb] ++ out, ?_⟩
          simp only [hexDecodeAllLoop, hab, if_true, hpair]
          rw [hout]
          rfl
      · obtain ⟨out, hout⟩ := ih ws1 [b] (by simp at h ⊢; omega)
        refine ⟨a :: out, ?_⟩
        simp only [hexDecodeAllLoop, hab, if_false]
        rw [hout]
        rfl

theorem hexdecodeall_total (val : List Nat) :
    ∃ out, hex_decode_all val = .ok out :=
  hexDecodeAllLoop_total (windows2 val).length (windows2 val) [] (Nat.le_refl _)

/-! Equivalence of the window loop with the spec's greedy scan, for buffers of
length at least two (a single-byte buffer yields no window at all, so the loop
returns the empty initial carry — see the claims about that edge case). -/

theorem loop_pass {a b : Nat} {ws : List (Nat × Nat)} {junk : List Nat}
    (hab : ¬((isAsciiHexDigit a && isAsciiHexDigit b) = true)) :
    hexDecodeAllLoop ((a, b) :: ws) junk =
      (hexDecodeAllLoop ws [b]).map (fun r => a :: r) := by
  simp only [hexDecodeAllLoop]
  rw [if_neg hab]

theorem loop_hex_last {a b va vb : Nat} {junk : List Nat}
    (hab : (isAsciiHexDigit a && isAsciiHexDigit b) = true)
    (hva : hexVal a = some va) (hvb : hexVal b = some vb) :
    hexDecodeAllLoop [(a, b)] junk = .ok [va * 16 + vb] := by
  simp only [hexDecodeAllLoop]
  rw [if_pos hab, hexDecode_pair hva hvb]
  rfl

theorem loop_hex_cons {a b c d va vb : Nat} {ws2 : List (Nat × Nat)} {junk : List Nat}
    (hab : (isAsciiHexDigit a && isAsciiHexDigit b) = true)
    (hva : hexVal a = some va) (hvb : hexVal b = some vb) :
    hexDecodeAllLoop ((a, b) :: (c, d) :: ws2) junk =
      (hexDecodeAllLoop ws2 [d]).map (fun r => (va * 16 + vb) :: r) := by
  simp only [hexDecodeAllLoop]
  rw [if_pos hab, hexDecode_pair hva hvb]
  rfl

theorem loop_scan : ∀ (n : Nat) (l junk : List Nat), l.length ≤ n → 2 ≤ l.length →
    hexDecodeAllLoop (windows2 l) junk = .ok (findAnywhereScan l) := by
  intro n
  induction n with
  | zero => intro l junk h h2; exact absurd h (by omega)
  | succ n ih =>
    intro l junk h h2
    match l with
    | [] => simp at h2
    | [a] => simp at h2
    | a :: b :: rest =>
      by_cases hab : (isAsciiHexDigit a && isAsciiHexDigit b) = true
      · obtain ⟨ha, hb⟩ := Bool.and_eq_true .. |>.mp hab
        obtain ⟨va, hva⟩ := hexVal_some_of_hex ha
        obtain ⟨vb, hvb⟩ := hexVal_some_of_hex hb
        match rest with
        | [] =>
          rw [show windows2 [a, b] = [(a, b)] from rfl, loop_hex_last hab hva hvb]
          simp only [findAnywhereScan, hva, hvb, Option.getD_some]
          rw [if_pos hab]
        | [r0] =>
          rw [show windows2 [a, b, r0] = [(a, b), (b, r0)] from rfl,
            loop_hex_cons hab hva hvb]
          simp only [findAnywhereScan, hva, hvb, Option.getD_some]
          rw [if_pos hab]
          rfl
        | r0 :: r1 :: rest2 =>
          have hrec := ih (r0 :: r1 :: rest2) [r0] (by simp at h ⊢; omega) (by simp)
          rw [show windows2 (a :: b :: r0 :: r1 :: rest2)
                = (a, b) :: (b, r0) :: windows2 (r0 :: r1 :: rest2) from rfl,
            loop_hex_cons hab hva hvb, hrec]
          simp only [findAnywhereScan, hva, hvb, Option.getD_some]
          rw [if_pos hab]
          rfl
      · match rest with
        | [] =>
          rw [show windows2 [a, b] = [(a, b)] from rfl, loop_pass hab]
          simp only [findAnywhereScan]
          rw [if_neg hab]
          rfl
        | r0 :: rest1 =>
          have hrec := ih (b :: r0 :: rest1) [b] (by simp at h ⊢; omega) (by simp)
          rw [show windows2 (a :: b :: r0 :: rest1)
                = (a, b) :: windows2 (b :: r0 :: rest1) from rfl,
            loop_pass hab, hrec]
          simp only [findAnywhereScan]
          rw [if_neg hab]
          rfl

theorem hexDecodeAll_eq_scan : ∀ (l : List Nat), l.length ≠ 1 →
    hex_decode_all l = .ok (findAnywhereScan l)
  | [], _ => rfl
  | [_], h => by simp at h
  | a :: b :: rest, _ =>
    loop_scan (a :: b :: rest).length (a :: b :: rest) [] (Nat.le_refl _) (by simp)

theorem scan_length : ∀ l : List Nat,
    (findAnywhereScan l).length + findAnywherePairs l = l.length
  | [] => rfl
  | [_] => rfl
  | a :: b :: rest => by
    simp only [findAnywhereScan, findAnywherePairs, List.length_cons]
    by_cases hab : (isAsciiHexDigit a && isAsciiHexDigit b) = true
    · rw [if_pos hab, if_pos hab]
      have := scan_length rest
      simp only [List.length_cons]
      omega
    · rw [if_neg hab, if_neg hab]
      have := scan_length (b :: rest)
      simp only [List.length_cons] at this ⊢
      omega

theorem pairs_le_scan_length : ∀ l : List Nat,
    findAnywherePairs l ≤ (findAnywhereScan l).length
  | [] => Nat.le_refl _
  | [_] => by simp [findAnywhereScan, findAnywherePairs]
  | a :: b :: rest => by
    simp only [findAnywhereScan, findAnywherePairs]
    by_cases hab : (isAsciiHexDigit a && isAsciiHexDigit b) = true
    · rw [if_pos hab, if_pos hab]
      have := pairs_le_scan_length rest
      simp only [List.length_cons]
      omega
    · rw [if_neg hab, if_neg hab]
      have := pairs_le_scan_length (b :: rest)
      simp only [List.length_cons]
      omega

/-! Lemmas about the hex encoder, for the round-trip claims. -/

theorem hexVal_hexDigitLower {n : Nat} (h : n < 16) :
    hexVal (hexDigitLower n) = some n := by
  by_cases hn : n < 10
  · have h1 : ¬(65 ≤ 48 + n ∧ 48 + n ≤ 70) := by omega
    have h2 : ¬(97 ≤ 48 + n ∧ 48 + n ≤ 102) := by omega
    have h3 : 48 ≤ 48 + n ∧ 48 + n ≤ 57 := by omega
    rw [hexDigitLower, if_pos hn, hexVal, if_neg h1, if_neg h2, if_pos h3]
    congr 1
    omega
  · have h1 : ¬(65 ≤ 87 + n ∧ 87 + n ≤ 70) := by omega
    have h2 : 97 ≤ 87 + n ∧ 87 + n ≤ 102 := by omega
    rw [hexDigitLower, if_neg hn, hexVal, if_neg h1, if_pos h2]
    congr 1
    omega

theorem isHex_hexDigitLower {n : Nat} (h : n < 16) :
    isAsciiHexDigit (hexDigitLower n) = true := by
  rw [isHex_iff_hexVal_isSome, hexVal_hexDigitLower h]
  rfl

theorem hexEncode_length : ∀ b : List Nat, (hexEncode b).length = 2 * b.length
  | [] => rfl
  | x :: rest => by
    simp only [hexEncode, List.length_cons, hexEncode_length rest]
    omega

theorem hexEncode_mem_range : ∀ (b : List Nat), (∀ x ∈ b, x < 256) →
    ∀ y ∈ hexEncode b, (48 ≤ y ∧ y ≤ 57) ∨ (97 ≤ y ∧ y ≤ 102)
  | [], _, y, hy => by simp [hexEncode] at hy
  | x :: rest, h, y, hy => by
    have hx : x < 256 := h x (by simp)
    simp only [hexEncode, List.mem_cons] at hy
    rcases hy with hy | hy | hy
    · subst hy
      unfold hexDigitLower
      split_ifs <;> omega
    · subst hy
      unfold hexDigitLower
      split_ifs <;> omega
    · exact hexEncode_mem_range rest (fun z hz => h z (by simp [hz])) y hy

theorem not_ws_of_digit_range {y : Nat}
    (h : (48 ≤ y ∧ y ≤ 57) ∨ (97 ≤ y ∧ y ≤ 102)) : isWhitespaceByte y = false := by
  simp only [isWhitespaceByte, Bool.or_eq_false_iff, beq_eq_false_iff_ne, ne_eq]
  omega

theorem dropWhile_eq_self_of_forall {p : Nat → Bool} (l : List Nat)
    (h : ∀ x ∈ l, p x = false) : l.dropWhile p = l := by
  cases l with
  | nil => rfl
  | cons x rest =>
    rw [List.dropWhile_cons, if_neg (by simp [h x (by simp)])]

theorem trim_eq_self {l : List Nat} (h : ∀ x ∈ l, isWhitespaceByte x = false) :
    trim l = l := by
  unfold trim
  rw [dropWhile_eq_self_of_forall l h,
    dropWhile_eq_self_of_forall l.reverse (fun x hx => h x (List.mem_reverse.mp hx)),
    List.reverse_reverse]

theorem stripSpaces_eq_self {l : List Nat} (h : ∀ x ∈ l, x ≠ 32) :
    stripSpaces l = l := by
  refine List.filter_eq_self.mpr ?_
  intro a ha
  simp [h a ha]

theorem decodePairs_hexEncode : ∀ (b : List Nat) (k : Nat), (∀ x ∈ b, x < 256) →
    decodePairs (hexEncode b) k = .ok b
  | [], _, _ => rfl
  | x :: rest, k, h => by
    have hx : x < 256 := h x (by simp)
    have hdiv : x / 16 < 16 := by omega
    have hmod : x % 16 < 16 := by omega
    simp only [hexEncode, decodePairs, hexVal_hexDigitLower hdiv,
      hexVal_hexDigitLower hmod]
    rw [decodePairs_hexEncode rest (k + 2) (fun z hz => h z (by simp [hz]))]
    have hval : x / 16 * 16 + x % 16 = x := by omega
    rw [Except.map, hval]

theorem hexDecode_hexEncode {b : List Nat} (h : ∀ x ∈ b, x < 256) :
    hexDecode (hexEncode b) = .ok b := by
  unfold hexDecode
  rw [if_neg (by rw [hexEncode_length]; omega)]
  exact decodePairs_hexEncode b 0 h

theorem scan_hexEncode : ∀ (b : List Nat), (∀ x ∈ b, x < 256) →
    findAnywhereScan (hexEncode b) = b
  | [], _ => rfl
  | x :: rest, h => by
    have hx : x < 256 := h x (by simp)
    have hdiv : x / 16 < 16 := by omega
    have hmod : x % 16 < 16 := by omega
    simp only [hexEncode, findAnywhereScan]
    rw [if_pos (by rw [isHex_hexDigitLower hdiv, isHex_hexDigitLower hmod]; rfl),
      hexVal_hexDigitLower hdiv, hexVal_hexDigitLower hmod,
      scan_hexEncode rest (fun z hz => h z (by simp [hz]))]
    simp only [Option.getD_some]
    have hval : x / 16 * 16 + x % 16 = x := by omega
    rw [hval]

/-! The first invalid character determines the index reported by strict
decoding. -/

theorem decodePairs_invalid : ∀ (pre : List Nat) (c : Nat) (post : List Nat) (k : Nat),
    (pre.length + (post.length + 1)) % 2 = 0 →
    (∀ x ∈ pre, isAsciiHexDigit x = true) →
    isAsciiHexDigit c = false →
    decodePairs (pre ++ c :: post) k = .error (.InvalidHexCharacter c (k + pre.length))
  | [], c, post, k, hpar, _, hc => by
    match post with
    | [] => simp at hpar
    | q :: post2 =>
      simp only [List.nil_append, decodePairs, hexVal_eq_none_of_not_hex hc,
        List.length_nil]
      simp
  | [p], c, post, k, hpar, hpre, hc => by
    obtain ⟨vp, hvp⟩ := hexVal_some_of_hex (hpre p (by simp))
    simp only [List.cons_append, List.nil_append, decodePairs, hvp,
      hexVal_eq_none_of_not_hex hc, List.length_singleton]
  | p1 :: p2 :: pre2, c, post, k, hpar, hpre, hc => by
    obtain ⟨v1, hv1⟩ := hexVal_some_of_hex (hpre p1 (by simp))
    obtain ⟨v2, hv2⟩ := hexVal_some_of_hex (hpre p2 (by simp))
    simp only [List.cons_append, List.append_eq, decodePairs, hv1, hv2]
    rw [decodePairs_invalid pre2 c post (k + 2)
      (by simp only [List.length_cons] at hpar ⊢; omega)
      (fun x hx => hpre x (by simp [hx])) hc]
    rw [Except.map]
    simp only [List.length_cons]
    congr 2
    omega

theorem hexDecode_first_invalid {pre : List Nat} {c : Nat} {post : List Nat}
    (hpar : (pre ++ c :: post).length % 2 = 0)
    (hpre : ∀ x ∈ pre, isAsciiHexDigit x = true)
    (hc : isAsciiHexDigit c = false) :
    hexDecode (pre ++ c :: post) = .error (.InvalidHexCharacter c pre.length) := by
  unfold hexDecode
  rw [if_neg (by omega)]
  have h := decodePairs_invalid pre c post 0
    (by simp only [List.length_append, List.length_cons] at hpar ⊢; omega) hpre hc
  rw [h]
  simp

/-! Byte accounting for the non-strict hex-only decoder on buffers whose only
whitespace is the space character. -/

theorem hexOnly_run : ∀ (f : Nat) (s : List Nat), s.length < f →
    (∀ w ∈ s, isWhitespaceByte w = false) →
    ∃ out, hexOnlyFuel f false s = .ok out ∧
      out.length + hexOnlyCountFuel f s = s.length ∧
      hexOnlyCountFuel f s ≤ out.length := by
  intro f
  induction f with
  | zero => intro s h _; exact absurd h (by omega)
  | succ f ih =>
    intro s hf hs
    have hss : stripSpaces (trim s) = s := by
      rw [trim_eq_self hs, stripSpaces_eq_self]
      intro x hx h32
      have := hs x hx
      rw [h32] at this
      simp [isWhitespaceByte] at this
    rcases hdec : hexDecode (stripSpaces (trim s)) with e | d
    · cases e with
      | InvalidHexCharacter c i =>
        have hi : i < s.length := by
          have := hexDecode_invalid_bound hdec
          rwa [hss] at this
        have htk : (s.take i).length = i := by rw [List.length_take]; omega
        obtain ⟨out2, hout2, hlen2, hle2⟩ := ih (s.take i) (by omega)
          (fun w hw => hs w ((List.take_sublist i s).subset hw))
        refine ⟨out2 ++ s.drop i, ?_, ?_, ?_⟩
        · rw [hexOnlyFuel_false_invalid hdec, hss, hout2]
          rfl
        · rw [hexOnlyCountFuel_invalid hdec, hss, List.length_append, List.length_drop]
          rw [htk] at hlen2
          omega
        · rw [hexOnlyCountFuel_invalid hdec, hss, List.length_append]
          omega
      | OddLength =>
        have hodd : s.length % 2 = 1 := by
          have := hexDecode_oddLength_iff.mp hdec
          rwa [hss] at this
        have htk : (s.take (s.length - 1)).length = s.length - 1 := by
          rw [List.length_take]; omega
        obtain ⟨out2, hout2, hlen2, hle2⟩ := ih (s.take (s.length - 1)) (by omega)
          (fun w hw => hs w ((List.take_sublist _ s).subset hw))
        refine ⟨out2 ++ s.drop (s.length - 1), ?_, ?_, ?_⟩
        · rw [hexOnlyFuel_false_odd hdec, hss, hout2]
          rfl
        · rw [hexOnlyCountFuel_odd hdec, hss, List.length_append, List.length_drop]
          rw [htk] at hlen2
          omega
        · rw [hexOnlyCountFuel_odd hdec, hss, List.length_append]
          omega
      | InvalidStringLength =>
        rcases hexDecode_error_kinds hdec with h1 | ⟨c, i, h2, _⟩
        · cases h1
        · cases h2
    · refine ⟨d, hexOnlyFuel_false_ok hdec, ?_, ?_⟩
      · rw [hexOnlyCountFuel_ok hdec]
        have := hexDecode_ok_length hdec
        rw [hss] at this
        omega
      · rw [hexOnlyCountFuel_ok hdec]

theorem stripSpaces_dropWhile {l : List Nat}
    (h : ∀ w ∈ l, isWhitespaceByte w = true → w = 32) :
    stripSpaces (l.dropWhile isWhitespaceByte) = stripSpaces l := by
  induction l with
  | nil => rfl
  | cons x rest ih =>
    by_cases hx : isWhitespaceByte x = true
    · have hx32 : x = 32 := h x (by simp) hx
      rw [List.dropWhile_cons, if_pos hx, ih (fun w hw hww => h w (by simp [hw]) hww),
        hx32]
      simp [stripSpaces, List.filter_cons]
    · rw [List.dropWhile_cons, if_neg hx]

theorem stripSpaces_reverse (l : List Nat) :
    stripSpaces l.reverse = (stripSpaces l).reverse :=
  List.filter_reverse ..

theorem stripSpaces_trim {l : List Nat}
    (h : ∀ w ∈ l, isWhitespaceByte w = true → w = 32) :
    stripSpaces (trim l) = stripSpaces l := by
  unfold trim
  have hmem1 : ∀ w ∈ (l.dropWhile isWhitespaceByte).reverse,
      isWhitespaceByte w = true → w = 32 := by
    intro w hw
    exact h w ((List.dropWhile_sublist _).subset (List.mem_reverse.mp hw))
  rw [stripSpaces_reverse, stripSpaces_dropWhile hmem1, stripSpaces_reverse,
    List.reverse_reverse, stripSpaces_dropWhile h]

theorem stripSpaces_ws_free {l : List Nat}
    (h : ∀ w ∈ l, isWhitespaceByte w = true → w = 32) :
    ∀ w ∈ stripSpaces l, isWhitespaceByte w = false := by
  intro w hw
  obtain ⟨hmem, hne⟩ := List.mem_filter.mp hw
  by_cases hws : isWhitespaceByte w = true
  · have := h w hmem hws
    subst this
    simp at hne
  · simpa using hws

theorem stripSpaces_length_count : ∀ l : List Nat,
    (stripSpaces l).length + l.count 32 = l.length
  | [] => rfl
  | x :: rest => by
    have := stripSpaces_length_count rest
    by_cases h32 : x = 32
    · subst h32
      simp only [stripSpaces, List.filter_cons, List.count_cons] at this ⊢
      simp only [show ((32 : Nat) != 32) = false from rfl, if_false]
      simp only [List.length_cons]
      simp
      omega
    · simp only [stripSpaces, List.filter_cons, List.count_cons] at this ⊢
      rw [if_pos (by simp [h32]), if_neg (by simp [h32])]
      simp only [List.length_cons]
      omega

theorem hexOnlyFuel_val_strip {g : Nat} {val : List Nat}
    (h1 : trim (stripSpaces (trim val)) = stripSpaces (trim val))
    (h2 : stripSpaces (stripSpaces (trim val)) = stripSpaces (trim val)) :
    hexOnlyFuel (g + 1) false val = hexOnlyFuel (g + 1) false (stripSpaces (trim val)) := by
  rw [hexOnlyFuel_succ_false, hexOnlyFuel_succ_false, h1, h2]

theorem hexOnlyCountFuel_val_strip {g : Nat} {val : List Nat}
    (h1 : trim (stripSpaces (trim val)) = stripSpaces (trim val))
    (h2 : stripSpaces (stripSpaces (trim val)) = stripSpaces (trim val)) :
    hexOnlyCountFuel (g + 1) val = hexOnlyCountFuel (g + 1) (stripSpaces (trim val)) := by
  rw [hexOnlyCountFuel_succ, hexOnlyCountFuel_succ, h1, h2]

theorem hexonly_run_val {val : List Nat}
    (h : ∀ w ∈ val, isWhitespaceByte w = true → w = 32) :
    ∃ out, hex_decode_hexonly false val = .ok out ∧
      out.length + hexOnlyDecodedCount val + val.count 32 = val.length ∧
      hexOnlyDecodedCount val ≤ out.length := by
  have hwsfree : ∀ w ∈ stripSpaces (trim val), isWhitespaceByte w = false := by
    rw [stripSpaces_trim h]
    exact stripSpaces_ws_free h
  have h1 : trim (stripSpaces (trim val)) = stripSpaces (trim val) :=
    trim_eq_self hwsfree
  have h2 : stripSpaces (stripSpaces (trim val)) = stripSpaces (trim val) :=
    stripSpaces_eq_self (fun x hx h32 => by
      have := hwsfree x hx
      rw [h32] at this
      simp [isWhitespaceByte] at this)
  have hsl : (stripSpaces (trim val)).length ≤ val.length := stripTrim_length_le val
  obtain ⟨out, hout, hlen, hle⟩ :=
    hexOnly_run (val.length + 1) (stripSpaces (trim val)) (by omega) hwsfree
  refine ⟨out, ?_, ?_, ?_⟩
  · unfold hex_decode_hexonly
    rw [hexOnlyFuel_val_strip h1 h2]
    exact hout
  · have hcount : hexOnlyDecodedCount val = hexOnlyCountFuel (val.length + 1)
        (stripSpaces (trim val)) := by
      unfold hexOnlyDecodedCount
      rw [hexOnlyCountFuel_val_strip h1 h2]
    have hacc : (stripSpaces (trim val)).length + val.count 32 = val.length := by
      rw [stripSpaces_trim h]
      exact stripSpaces_length_count val
    rw [hcount]
    omega
  · have hcount : hexOnlyDecodedCount val = hexOnlyCountFuel (val.length + 1)
        (stripSpaces (trim val)) := by
      unfold hexOnlyDecodedCount
      rw [hexOnlyCountFuel_val_strip h1 h2]
    rw [hcount]
    exact hle

/-! Claim theorems. -/

/-- C1: encoding any byte buffer with the hex encoder and decoding the result
with the find-anywhere decoder returns the original buffer, and the same pure
even-length hex input also round-trips under the strict and lenient hex-only
modes. -/
theorem claim_C1_round_trip (b : List Nat) (h : ∀ x ∈ b, x < 256) :
    hex_decode_all (hexEncode b) = .ok b ∧
    hex_decode_hexonly true (hexEncode b) = .ok b ∧
    hex_decode_hexonly false (hexEncode b) = .ok b := by
  have hrange := hexEncode_mem_range b h
  have hnws : ∀ y ∈ hexEncode b, isWhitespaceByte y = false :=
    fun y hy => not_ws_of_digit_range (hrange y hy)
  have htrim : trim (hexEncode b) = hexEncode b := trim_eq_self hnws
  have hstrip : stripSpaces (hexEncode b) = hexEncode b :=
    stripSpaces_eq_self (fun y hy => by have := hrange y hy; omega)
  have hdec : hexDecode (hexEncode b) = .ok b := hexDecode_hexEncode h
  refine ⟨?_, ?_, ?_⟩
  · rw [hexDecodeAll_eq_scan (hexEncode b) (by rw [hexEncode_length]; omega),
      scan_hexEncode b h]
  · rw [hexOnly_strict_eq, htrim, hdec]
    rfl
  · exact hexOnly_ok_eq (by rw [htrim, hstrip]; exact hdec)

/-- C1 witness: the round trip evaluated on the concrete buffer `[0, 255, 16]`. -/
theorem claim_C1_round_trip_witness :
    (∀ x ∈ ([0, 255, 16] : List Nat), x < 256) ∧
    (hex_decode_all (hexEncode [0, 255, 16]) = .ok [0, 255, 16] ∧
      hex_decode_hexonly true (hexEncode [0, 255, 16]) = .ok [0, 255, 16] ∧
      hex_decode_hexonly false (hexEncode [0, 255, 16]) = .ok [0, 255, 16]) :=
  ⟨by decide, claim_C1_round_trip [0, 255, 16] (by decide)⟩

/-- C2: the find-anywhere decoder at the claim's two quoted examples, which
hold, and at the single-byte buffer `"5"`, where the claimed greedy scan (which
would pass the lone byte through) disagrees with the code: `windows(2)` yields
no window and the initial empty carry is flushed, so the byte is dropped. -/
theorem claim_C2_find_anywhere_scan :
    hex_decode_all [53] = .ok [] ∧
    findAnywhereScan [53] = [53] ∧
    hex_decode_all [116, 101, 115, 116, 53, 50, 97, 102] =
      .ok [116, 101, 115, 116, 82, 175] ∧
    hex_decode_all [33, 53, 32, 50, 97, 102] = .ok [33, 53, 32, 42, 102] :=
  ⟨rfl, rfl, rfl, rfl⟩

/-- C3: in non-strict hex-only mode, when strict decoding of the trimmed,
space-stripped buffer fails with an invalid character at index `i`, the result
is the lenient decode of the head before `i` followed by the tail from `i`
copied verbatim; hex interpretation never resumes after the invalid byte. -/
theorem claim_C3_invalid_char_recovery (val : List Nat) (c i : Nat)
    (h : hexDecode (stripSpaces (trim val)) = .error (.InvalidHexCharacter c i)) :
    ∃ out, hex_decode_hexonly false ((stripSpaces (trim val)).take i) = .ok out ∧
      hex_decode_hexonly false val = .ok (out ++ (stripSpaces (trim val)).drop i) := by
  obtain ⟨out, hout⟩ := hexonly_total ((stripSpaces (trim val)).take i)
  refine ⟨out, hout, ?_⟩
  rw [hexOnly_invalid_eq h, hout]
  rfl

/-- C3 witness: `"41g1"` fails at index 2 on `'g'` and decodes to
`[0x41] ++ "g1"`. -/
theorem claim_C3_invalid_char_recovery_witness :
    hexDecode (stripSpaces (trim [52, 49, 103, 49])) =
      .error (.InvalidHexCharacter 103 2) ∧
    (∃ out, hex_decode_hexonly false ((stripSpaces (trim [52, 49, 103, 49])).take 2) =
        .ok out ∧
      hex_decode_hexonly false [52, 49, 103, 49] =
        .ok (out ++ (stripSpaces (trim [52, 49, 103, 49])).drop 2)) :=
  ⟨rfl, claim_C3_invalid_char_recovery [52, 49, 103, 49] 103 2 rfl⟩

/-- C4: in non-strict hex-only mode, when strict decoding of the trimmed,
space-stripped buffer fails with an odd length, the result is the lenient
decode of the buffer minus its last byte, with that last byte appended
unchanged as a literal. -/
theorem claim_C4_odd_length_recovery (val : List Nat)
    (h : hexDecode (stripSpaces (trim val)) = .error .OddLength) :
    ∃ out, hex_decode_hexonly false
        ((stripSpaces (trim val)).take ((stripSpaces (trim val)).length - 1)) = .ok out ∧
      hex_decode_hexonly false val =
        .ok (out ++ (stripSpaces (trim val)).drop ((stripSpaces (trim val)).length - 1)) := by
  obtain ⟨out, hout⟩ :=
    hexonly_total ((stripSpaces (trim val)).take ((stripSpaces (trim val)).length - 1))
  refine ⟨out, hout, ?_⟩
  rw [hexOnly_odd_eq h, hout]
  rfl

/-- C4 witness: `"414"` peels the trailing `'4'` and decodes to `[0x41, 0x34]`. -/
theorem claim_C4_odd_length_recovery_witness :
    hexDecode (stripSpaces (trim [52, 49, 52])) = .error .OddLength ∧
    (∃ out, hex_decode_hexonly false
        ((stripSpaces (trim [52, 49, 52])).take
          ((stripSpaces (trim [52, 49, 52])).length - 1)) = .ok out ∧
      hex_decode_hexonly false [52, 49, 52] =
        .ok (out ++ (stripSpaces (trim [52, 49, 52])).drop
          ((stripSpaces (trim [52, 49, 52])).length - 1))) :=
  ⟨rfl, claim_C4_odd_length_recovery [52, 49, 52] rfl⟩

/-- C5: in strict mode, after trimming, an odd-length all-hex buffer fails
with OddLength, and an even-length buffer whose single non-hex character sits
at index `i` fails with InvalidCharacter at `i`; no partial output exists. -/
theorem claim_C5_strict_failures (val : List Nat) :
    ((∀ x ∈ trim val, isAsciiHexDigit x = true) → (trim val).length % 2 = 1 →
      hex_decode_hexonly true val = .error (.hexErr .OddLength)) ∧
    (∀ pre c post, trim val = pre ++ c :: post →
      (∀ x ∈ pre, isAsciiHexDigit x = true) → isAsciiHexDigit c = false →
      (∀ x ∈ post, isAsciiHexDigit x = true) → (trim val).length % 2 = 0 →
      hex_decode_hexonly true val =
        .error (.hexErr (.InvalidHexCharacter c pre.length))) := by
  constructor
  · intro _ hodd
    rw [hexOnly_strict_eq, hexDecode_oddLength_iff.mpr hodd]
    rfl
  · intro pre c post heq hpre hc _ heven
    rw [heq] at heven
    rw [hexOnly_strict_eq, heq, hexDecode_first_invalid heven hpre hc]
    rfl

/-- C5 witness: strict `"fff"` fails with OddLength; strict `"4g41"` fails
with InvalidCharacter at index 1. -/
theorem claim_C5_strict_failures_witness :
    hex_decode_hexonly true [102, 102, 102] = .error (.hexErr .OddLength) ∧
    hex_decode_hexonly true [52, 103, 52, 49] =
      .error (.hexErr (.InvalidHexCharacter 103 1)) :=
  ⟨(claim_C5_strict_failures [102, 102, 102]).1 (by decide) (by decide),
   (claim_C5_strict_failures [52, 103, 52, 49]).2 [52] 103 [52, 49]
     (by decide) (by decide) (by decide) (by decide) (by decide)⟩

/-- C6 counterexample: the hex-only decode of `"4\x0a1"` drops the interior
newline through the trim inside the recursive call: the output has 2 bytes,
no pair is decoded and no space is stripped, yet the input has 3 bytes, so
pass-through + 2·pairs + stripped spaces ≠ input length. -/
theorem claim_C6_counterexample :
    hex_decode_hexonly false [52, 10, 49] = .ok [52, 49] ∧
    hexOnlyDecodedCount [52, 10, 49] = 0 ∧
    List.count 32 [52, 10, 49] = 0 ∧
    ([52, 49] : List Nat).length + 2 * 0 + 0 ≠ ([52, 10, 49] : List Nat).length :=
  ⟨rfl, rfl, rfl, by decide⟩

/-- C6 (amended): the byte accounting holds with these provisos: for the
find-anywhere decoder, for every input of length ≠ 1 (a single byte is
dropped); for the non-strict hex-only decoder, whenever every whitespace byte
of the input is a space (other whitespace can be silently dropped by the trim
steps); for the strict decoder, counting trimmed-off bytes instead of
stripped spaces. -/
theorem claim_C6_byte_accounting :
    (∀ l : List Nat, l.length ≠ 1 → ∃ out pass, hex_decode_all l = .ok out ∧
      out.length = pass + findAnywherePairs l ∧
      pass + 2 * findAnywherePairs l = l.length) ∧
    (∀ val : List Nat, (∀ w ∈ val, isWhitespaceByte w = true → w = 32) →
      ∃ out pass, hex_decode_hexonly false val = .ok out ∧
        out.length = pass + hexOnlyDecodedCount val ∧
        pass + 2 * hexOnlyDecodedCount val + List.count 32 val = val.length) ∧
    (∀ val out : List Nat, hex_decode_hexonly true val = .ok out →
      2 * out.length + (val.length - (trim val).length) = val.length) := by
  refine ⟨?_, ?_, ?_⟩
  · intro l hl
    refine ⟨findAnywhereScan l, (findAnywhereScan l).length - findAnywherePairs l,
      hexDecodeAll_eq_scan l hl, ?_, ?_⟩
    · have := pairs_le_scan_length l
      omega
    · have h1 := scan_length l
      have h2 := pairs_le_scan_length l
      omega
  · intro val h
    obtain ⟨out, hout, hlen, hle⟩ := hexonly_run_val h
    exact ⟨out, out.length - hexOnlyDecodedCount val, hout, by omega, by omega⟩
  · intro val out h
    rw [hexOnly_strict_eq] at h
    have hdec : hexDecode (trim val) = .ok out := by
      rcases hd : hexDecode (trim val) with e | d <;> rw [hd] at h
      · simp [Except.mapError] at h
      · simp only [Except.mapError] at h
        cases h
        rfl
    have h1 := hexDecode_ok_length hdec
    have h2 := trim_length_le val
    omega

/-- C6 witness: the three accounting clauses evaluated at `"!5 2af"`,
`"01 23"` and `" 41"` respectively. -/
theorem claim_C6_byte_accounting_witness :
    (∃ out pass, hex_decode_all [33, 53, 32, 50, 97, 102] = .ok out ∧
      out.length = pass + findAnywherePairs [33, 53, 32, 50, 97, 102] ∧
      pass + 2 * findAnywherePairs [33, 53, 32, 50, 97, 102] =
        ([33, 53, 32, 50, 97, 102] : List Nat).length) ∧
    (∃ out pass, hex_decode_hexonly false [48, 49, 32, 50, 51] = .ok out ∧
      out.length = pass + hexOnlyDecodedCount [48, 49, 32, 50, 51] ∧
      pass + 2 * hexOnlyDecodedCount [48, 49, 32, 50, 51] +
        List.count 32 [48, 49, 32, 50, 51] = ([48, 49, 32, 50, 51] : List Nat).length) ∧
    2 * ([65] : List Nat).length +
      (([32, 52, 49] : List Nat).length - (trim [32, 52, 49]).length) =
      ([32, 52, 49] : List Nat).length :=
  ⟨claim_C6_byte_accounting.1 [33, 53, 32, 50, 97, 102] (by decide),
   claim_C6_byte_accounting.2.1 [48, 49, 32, 50, 51] (by decide),
   claim_C6_byte_accounting.2.2 [32, 52, 49] [65] rfl⟩

/-- C7: the find-anywhere decoder on buffers of length 0 and 1: the empty
buffer yields an empty output as claimed, but a single-byte buffer also yields
an empty output, dropping its byte, contrary to the claim's unchanged copy. -/
theorem claim_C7_short_buffers :
    hex_decode_all ([] : List Nat) = .ok [] ∧ hex_decode_all [65] = .ok [] :=
  ⟨rfl, rfl⟩

/-- C8: the non-strict hex-only decoder and the find-anywhere decoder return
a successful result on every input: the panic catch-all of the lenient
recovery and the hex-decode error branch of the pair decode are unreachable. -/
theorem claim_C8_lenient_never_fails :
    (∀ val : List Nat, ∃ out, hex_decode_hexonly false val = .ok out) ∧
    (∀ val : List Nat, ∃ out, hex_decode_all val = .ok out) :=
  ⟨hexonly_total, hexdecodeall_total⟩

/-- C9 counterexample: the space character, excluded explicitly, still has a
true entry in the RFC 3986 table (it is not ASCII-graphic) and is encoded as
`%20` rather than passed through. -/
theorem claim_C9_counterexample :
    List.contains [32] 32 = true ∧
    build_url_table [32] 32 = true ∧
    urlencProcess (build_url_table [32]) [32] = [37, 50, 48] ∧
    urlencProcess (build_url_table [32]) [32] ≠ [32] :=
  ⟨rfl, rfl, rfl, by decide⟩

/-- C9 (amended): excluded characters have false table entries and pass
through unchanged for the custom and default policies unconditionally, and for
the RFC 3986 policy only when the character is ASCII-graphic (non-graphic
bytes are encoded regardless of exclusion); any byte with a true entry is
emitted as a percent sign followed by its two lowercase hex digits, and any
byte with a false entry passes through. -/
theorem claim_C9_tables_and_encoding :
    (∀ excluded custom : List Nat, ∀ b : Nat, excluded.contains b = true →
      build_custom_table excluded custom b = false ∧
      build_default_table excluded b = false ∧
      urlencProcess (build_custom_table excluded custom) [b] = [b] ∧
      urlencProcess (build_default_table excluded) [b] = [b]) ∧
    (∀ excluded : List Nat, ∀ b : Nat, excluded.contains b = true →
      isAsciiGraphic b = true →
      build_url_table excluded b = false ∧
      urlencProcess (build_url_table excluded) [b] = [b]) ∧
    (∀ (t : Nat → Bool) (b : Nat) (rest : List Nat),
      (t b = false → urlencProcess t (b :: rest) = b :: urlencProcess t rest) ∧
      (t b = true → urlencProcess t (b :: rest) =
        37 :: hexDigitLower (b / 16) :: hexDigitLower (b % 16) :: urlencProcess t rest)) ∧
    (∀ b : Nat, b < 256 →
      isLowercaseHexDigitByte (hexDigitLower (b / 16)) = true ∧
      isLowercaseHexDigitByte (hexDigitLower (b % 16)) = true) := by
  refine ⟨?_, ?_, ?_, ?_⟩
  · intro excluded custom b hexcl
    have hcust : build_custom_table excluded custom b = false := by
      unfold build_custom_table
      split_ifs
      · rw [hexcl]
        rfl
      · rfl
    have hdef : build_default_table excluded b = false := by
      unfold build_default_table
      split_ifs
      · rfl
      · rw [hexcl]
        rfl
    exact ⟨hcust, hdef, by simp [urlencProcess, hcust], by simp [urlencProcess, hdef]⟩
  · intro excluded b hexcl hgraph
    have hurl : build_url_table excluded b = false := by
      unfold build_url_table
      rw [hexcl, hgraph]
      rfl
    exact ⟨hurl, by simp [urlencProcess, hurl]⟩
  · intro t b rest
    constructor
    · intro ht
      simp [urlencProcess, ht]
    · intro ht
      simp [urlencProcess, ht]
  · intro b hb
    have hdiv : b / 16 < 16 := by omega
    have hmod : b % 16 < 16 := by omega
    constructor
    · unfold hexDigitLower isLowercaseHexDigitByte
      split_ifs <;> simp <;> omega
    · unfold hexDigitLower isLowercaseHexDigitByte
      split_ifs <;> simp <;> omega

/-- C9 witness: the amended clauses evaluated at the excluded `'!'` for all
three policies, at a default-table-encoded `'!'`, and at byte 255. -/
theorem claim_C9_tables_and_encoding_witness :
    build_custom_table [33] [33, 44] 33 = false ∧
    urlencProcess (build_default_table [33]) [33] = [33] ∧
    build_url_table [33] 33 = false ∧
    urlencProcess (build_default_table []) [33, 65] =
      37 :: hexDigitLower (33 / 16) :: hexDigitLower (33 % 16) ::
        urlencProcess (build_default_table []) [65] ∧
    isLowercaseHexDigitByte (hexDigitLower (255 / 16)) = true :=
  ⟨(claim_C9_tables_and_encoding.1 [33] [33, 44] 33 (by decide)).1,
   (claim_C9_tables_and_encoding.1 [33] [33, 44] 33 (by decide)).2.2.2,
   (claim_C9_tables_and_encoding.2.1 [33] 33 (by decide) (by decide)).1,
   (claim_C9_tables_and_encoding.2.2.1 (build_default_table []) 33 [65]).2 (by decide),
   (claim_C9_tables_and_encoding.2.2.2 255 (by decide)).1⟩

/-- C10: in strict mode the length parity of the trimmed input is checked
before character validity: odd length always yields OddLength (even with
invalid characters present), and an InvalidCharacter error is only ever
reported for even-length trimmed input. -/
theorem claim_C10_parity_before_validity (val : List Nat) :
    ((trim val).length % 2 = 1 → hex_decode_hexonly true val = .error (.hexErr .OddLength)) ∧
    (∀ c i, hex_decode_hexonly true val = .error (.hexErr (.InvalidHexCharacter c i)) →
      (trim val).length % 2 = 0) := by
  constructor
  · intro hodd
    rw [hexOnly_strict_eq, hexDecode_oddLength_iff.mpr hodd]
    rfl
  · intro c i h
    by_contra hne
    have hodd : (trim val).length % 2 = 1 := by omega
    rw [hexOnly_strict_eq, hexDecode_oddLength_iff.mpr hodd] at h
    simp [Except.mapError] at h

/-- C10 witness: strict `"41l"` (odd length with an invalid character) fails
with OddLength, and the InvalidCharacter failure of strict `"41ll"` certifies
its trimmed length is even — matching the crate's CLI test. -/
theorem claim_C10_parity_before_validity_witness :
    hex_decode_hexonly true [52, 49, 108] = .error (.hexErr .OddLength) ∧
    (trim [52, 49, 108, 108]).length % 2 = 0 :=
  ⟨(claim_C10_parity_before_validity [52, 49, 108]).1 (by decide),
   (claim_C10_parity_before_validity [52, 49, 108, 108]).2 108 2 rfl⟩

end Rsbkb
